import Mathlib

/-!
Shallow embedding of the Qdrant vectorstore sync engine
(`app/build_vectorstore.py`): text chunking, document key derivation,
the add/delete diff, id allocation, batched upsert, and the sync
orchestration, together with proofs of the specified properties.

Strings are modelled as lists of characters; Python dicts as
insertion-ordered association lists with update-in-place semantics;
the fallible parts (a key derivation that can raise `TypeError`, a
scroll call that can fail) as `Except`-valued functions.
-/

abbrev Str := List Char

/-- ASCII whitespace, as recognised by Python's argument-less `str.split`. -/
def isWs (c : Char) : Bool :=
  c = ' ' || c = '\t' || c = '\n' || c = '\r' || c = '\x0b' || c = '\x0c'

/-- Python `text.split()`: split on runs of whitespace, discarding empties. -/
def pySplit : Str → List Str
  | [] => []
  | c :: cs =>
    if isWs c then pySplit cs
    else (c :: cs.takeWhile (fun x => !isWs x)) :: pySplit (cs.dropWhile (fun x => !isWs x))
termination_by l => l.length
decreasing_by
  · simp
  · have := (List.dropWhile_sublist (fun x => !isWs x) (l := cs)).length_le
    simp
    omega

/-- Python `" ".join(words)`. -/
def joinSpaces : List Str → Str
  | [] => []
  | [w] => w
  | w :: ws => w ++ ' ' :: joinSpaces ws

/-- The slicing loop `for i in range(0, len(l), n): yield l[i : i + n]`
shared by `chunk_text` and `upsert_points_in_batches` (meaningful for
`n > 0`; Python raises on a zero step). -/
def sliceGroups (n : Nat) : List α → List (List α)
  | [] => []
  | a :: l => (a :: l).take n :: sliceGroups n (l.drop (n - 1))
termination_by l => l.length
decreasing_by
  simp
  omega

def CHUNK_SIZE : Nat := 500
def BATCH_SIZE : Nat := 200

/-- Model of `chunk_text`: split the text into words and regroup them in slices of
`chunk_size` words, each rejoined with single spaces. -/
def chunk_text (text : Str) (chunk_size : Nat) : List Str :=
  (sliceGroups chunk_size (pySplit text)).map joinSpaces

/-- Decimal digit characters, for Python's `str(int)` on the metadata
indices (which the loaders always create non-negative). -/
def digitChar (d : Nat) : Char :=
  match d with
  | 0 => '0' | 1 => '1' | 2 => '2' | 3 => '3' | 4 => '4'
  | 5 => '5' | 6 => '6' | 7 => '7' | 8 => '8' | 9 => '9'
  | _ => '!'

/-- Fuel-driven decimal rendering (the fuel `n + 1` always suffices). -/
def reprNatAux (fuel : Nat) (n : Nat) : Str :=
  match fuel with
  | 0 => []
  | fuel + 1 =>
    if n < 10 then [digitChar n]
    else reprNatAux fuel (n / 10) ++ [digitChar (n % 10)]

/-- Python `str(n)` for a natural number. -/
def reprNat (n : Nat) : Str := reprNatAux (n + 1) n

/-- Decimal decoding, the proof-side inverse of `reprNat`. -/
def decodeNat (l : Str) : Nat := l.foldl (fun a c => 10 * a + (c.toNat - 48)) 0

def rowKeyName : Str := ['r', 'o', 'w', '_', 'i', 'n', 'd', 'e', 'x']

def jsonKeyName : Str := ['j', 's', 'o', 'n', '_', 'i', 'n', 'd', 'e', 'x']

/-- The f-string fragment `f"#{name}:{value}"` appended by `doc_key` and by
the snapshot scan. -/
def idxSfx (name : Str) (v : Nat) : Str := ('#' :: name) ++ (':' :: reprNat v)

/-- Document metadata as the loaders create it: an optional `source`
string and optional `row_index` / `json_index` integers. -/
structure Metadata where
  source : Option Str
  row_index : Option Nat
  json_index : Option Nat
deriving DecidableEq

structure Document where
  text : Str
  metadata : Metadata
deriving DecidableEq

/-- The suffix loop `for suffix in ("row_index", "json_index"): if suffix in
md: key += f"#{suffix}:{md[suffix]}"`, shared verbatim by `doc_key` and the
snapshot scan in `sync_vectorstore`. -/
def addSuffixes (row : Option Nat) (json : Option Nat) (s : Str) : Str :=
  let s1 := match row with
    | some r => s ++ idxSfx rowKeyName r
    | none => s
  match json with
  | some j => s1 ++ idxSfx jsonKeyName j
  | none => s1

/-- Model of `doc_key(doc)`. Here `metadata.get("source")` yields `None` when absent, so
the result is either a string (`.ok (some s)`), Python `None`
(`.ok none`, when no suffix is appended to a missing source), or an
uncaught `TypeError` (`.error ()`, from `None += str`). -/
def doc_key (m : Metadata) : Except Unit (Option Str) :=
  match m.source with
  | some s => .ok (some (addSuffixes m.row_index m.json_index s))
  | none =>
    if m.row_index.isSome || m.json_index.isSome then .error ()
    else .ok none

deriving instance DecidableEq for Except

abbrev Vec := List Int

/-- A stored point's payload: `{"text": chunk, **doc.metadata}`. -/
structure Payload where
  text : Str
  source : Option Str
  row_index : Option Nat
  json_index : Option Nat
deriving DecidableEq

structure PointStruct where
  id : Nat
  vector : Vec
  payload : Payload
deriving DecidableEq

/-- The key the snapshot scan derives from a stored payload:
`payload.get("source", "")` followed by the shared suffix loop. -/
def scanKey (p : Payload) : Str :=
  addSuffixes p.row_index p.json_index (p.source.getD [])

/-- A Python dict as an insertion-ordered association list. -/
abbrev Dict (α β : Type) := List (α × β)

/-- Dict assignment `d[k] = v`: update in place if the key exists, else append. -/
def dictInsert [DecidableEq α] (k : α) (v : β) : Dict α β → Dict α β
  | [] => [(k, v)]
  | (k₀, v₀) :: d => if k = k₀ then (k, v) :: d else (k₀, v₀) :: dictInsert k v d

def dictLookup [DecidableEq α] (k : α) : Dict α β → Option β
  | [] => none
  | (k₀, v₀) :: d => if k = k₀ then some v₀ else dictLookup k d

def dictKeys (d : Dict α β) : List α := d.map Prod.fst

def dictValues (d : Dict α β) : List β := d.map Prod.snd

/-- Membership test `k in d`. -/
def dictContains [DecidableEq α] (d : Dict α β) (k : α) : Bool :=
  (dictLookup k d).isSome

/-- The deletion plan `to_delete = [existing_index[k] for k in existing_index if k not in new_index]`. -/
def planDeletes [DecidableEq α] (existing_index : Dict α β) (new_index : Dict α γ) :
    List β :=
  (existing_index.filter (fun kv => !(dictContains new_index kv.1))).map Prod.snd

/-- The addition plan `to_add = [new_index[k] for k in new_index if k not in existing_index]`. -/
def planAdds [DecidableEq α] (existing_index : Dict α β) (new_index : Dict α γ) :
    List γ :=
  (new_index.filter (fun kv => !(dictContains existing_index kv.1))).map Prod.snd

/-- Snapshot construction `existing_index`: scan the scrolled points, derive each one's key from
its payload, keep one representative id per key (later points overwrite). -/
def buildExistingIndex (pts : List PointStruct) : Dict (Option Str) Nat :=
  pts.foldl (fun d p => dictInsert (some (scanKey p.payload)) p.id d) []

/-- Incoming mapping `new_index = {doc_key(d): d for d in docs}`; a `TypeError` raised by
`doc_key` propagates. -/
def buildNewIndex (docs : List Document) : Except Unit (Dict (Option Str) Document) :=
  docs.foldlM (fun d doc => (doc_key doc.metadata).map (fun k => dictInsert k doc d)) []

/-- The inner loop of the addition phase: one point per chunk, consecutive
ids threaded through, payload `{"text": chunk, **doc.metadata}`. -/
def chunkPoints (embed : Str → Vec) (m : Metadata) (chunks : List Str) (nid : Nat) :
    List PointStruct × Nat :=
  match chunks with
  | [] => ([], nid)
  | c :: rest =>
    let p : PointStruct := ⟨nid, embed c, ⟨c, m.source, m.row_index, m.json_index⟩⟩
    let pr := chunkPoints embed m rest (nid + 1)
    (p :: pr.1, pr.2)

/-- The outer loop of the addition phase over `to_add`. -/
def buildNewPoints (embed : Str → Vec) (docs : List Document) (nid : Nat) :
    List PointStruct × Nat :=
  match docs with
  | [] => ([], nid)
  | d :: rest =>
    let pr := chunkPoints embed d.metadata (chunk_text d.text CHUNK_SIZE) nid
    let pr' := buildNewPoints embed rest pr.2
    (pr.1 ++ pr'.1, pr'.2)

/-- Model of `upsert_points_in_batches`: one upsert call per `batch_size`-slice of
the points, in order; the returned list holds the successive calls. -/
def upsert_points_in_batches (points : List α) (batch_size : Nat) : List (List α) :=
  sliceGroups batch_size points

/-- The externally observable effects of one sync run. -/
structure SyncTrace where
  deletes : List (List Nat)
  embeds : List Str
  upserts : List (List PointStruct)
deriving DecidableEq

/-- Model of `sync_vectorstore`: a failed scroll is caught and aborts the run with
no effect; otherwise diff the snapshot against the incoming corpus,
delete removed keys, and chunk/embed/upsert added documents with freshly
allocated ids. -/
def sync_vectorstore (embed : Str → Vec) (scroll : Except Unit (List PointStruct))
    (docs : List Document) : Except Unit SyncTrace :=
  match scroll with
  | .error _ => .ok ⟨[], [], []⟩
  | .ok existing =>
    let existing_index := buildExistingIndex existing
    match buildNewIndex docs with
    | .error e => .error e
    | .ok new_index =>
      let to_delete := planDeletes existing_index new_index
      let deletes := if to_delete.isEmpty then [] else [to_delete]
      let to_add := planAdds existing_index new_index
      let next_id := (dictValues existing_index).foldl max 0 + 1
      let new_points := (buildNewPoints embed to_add next_id).1
      .ok ⟨deletes, to_add.flatMap (fun d => chunk_text d.text CHUNK_SIZE),
           upsert_points_in_batches new_points BATCH_SIZE⟩

theorem dictLookup_eq_none_iff [DecidableEq α] (d : Dict α β) (k : α) :
    dictLookup k d = none ↔ ∀ v, (k, v) ∉ d := by
  induction d with
  | nil => simp [dictLookup]
  | cons kv d ih =>
    obtain ⟨k₀, v₀⟩ := kv
    by_cases hk : k = k₀
    · subst hk
      constructor
      · intro h
        simp [dictLookup] at h
      · intro h
        exact absurd (List.mem_cons_self _ _) (h v₀)
    · simp only [dictLookup, if_neg hk, ih, List.mem_cons]
      constructor
      · intro h v hv
        rcases hv with hv | hv
        · exact hk (congrArg Prod.fst hv)
        · exact h v hv
      · intro h v hv
        exact h v (Or.inr hv)

theorem dictContains_iff [DecidableEq α] (d : Dict α β) (k : α) :
    dictContains d k = true ↔ ∃ v, (k, v) ∈ d := by
  rw [dictContains, Option.isSome_iff_ne_none]
  rw [ne_eq, dictLookup_eq_none_iff]
  push_neg
  simp

theorem mem_of_dictLookup_eq_some [DecidableEq α] {d : Dict α β} {k : α} {v : β}
    (h : dictLookup k d = some v) : (k, v) ∈ d := by
  induction d with
  | nil => simp [dictLookup] at h
  | cons kv d ih =>
    obtain ⟨k₀, v₀⟩ := kv
    by_cases hk : k = k₀
    · subst hk
      simp only [dictLookup, if_pos rfl] at h
      cases h
      exact List.mem_cons_self _ _
    · simp only [dictLookup, if_neg hk] at h
      exact List.mem_cons_of_mem _ (ih h)

theorem mem_planDeletes_iff [DecidableEq α] (E : Dict α β) (I : Dict α γ) (v : β) :
    v ∈ planDeletes E I ↔ ∃ k, (k, v) ∈ E ∧ ∀ w, (k, w) ∉ I := by
  simp only [planDeletes, List.mem_map, List.mem_filter]
  constructor
  · rintro ⟨⟨k, v'⟩, ⟨hmem, hfilt⟩, hsnd⟩
    cases hsnd
    refine ⟨k, hmem, ?_⟩
    simp only [Bool.not_eq_true'] at hfilt
    have : ¬ dictContains I k = true := by simp [hfilt]
    rw [dictContains_iff] at this
    push_neg at this
    exact this
  · rintro ⟨k, hmem, hnone⟩
    refine ⟨(k, v), ⟨hmem, ?_⟩, rfl⟩
    simp only [Bool.not_eq_true']
    rw [← Bool.not_eq_true, dictContains_iff]
    push_neg
    exact hnone

theorem mem_planAdds_iff [DecidableEq α] (E : Dict α β) (I : Dict α γ) (w : γ) :
    w ∈ planAdds E I ↔ ∃ k, (k, w) ∈ I ∧ ∀ v, (k, v) ∉ E := by
  simp only [planAdds, List.mem_map, List.mem_filter]
  constructor
  · rintro ⟨⟨k, w'⟩, ⟨hmem, hfilt⟩, hsnd⟩
    cases hsnd
    refine ⟨k, hmem, ?_⟩
    simp only [Bool.not_eq_true'] at hfilt
    have : ¬ dictContains E k = true := by simp [hfilt]
    rw [dictContains_iff] at this
    push_neg at this
    exact this
  · rintro ⟨k, hmem, hnone⟩
    refine ⟨(k, w), ⟨hmem, ?_⟩, rfl⟩
    simp only [Bool.not_eq_true']
    rw [← Bool.not_eq_true, dictContains_iff]
    push_neg
    exact hnone

/-- Claim C6: if the scroll of the existing index state fails, the sync run
aborts with zero mutation — no delete call, no embedding call, and no
upsert call is performed in that run. -/
theorem sync_aborts_on_scroll_failure (embed : Str → Vec) (docs : List Document) :
    sync_vectorstore embed (Except.error ()) docs =
      Except.ok ⟨[], [], []⟩ := rfl

theorem key_eq_of_nodup_values {d : Dict α β} {k₁ k₂ : α} {v : β}
    (hnd : (dictValues d).Nodup) (h₁ : (k₁, v) ∈ d) (h₂ : (k₂, v) ∈ d) : k₁ = k₂ := by
  induction d with
  | nil => simp at h₁
  | cons kv rest ih =>
    simp only [dictValues, List.map_cons, List.nodup_cons] at hnd
    rcases List.mem_cons.mp h₁ with h₁ | h₁ <;> rcases List.mem_cons.mp h₂ with h₂ | h₂
    · rw [← h₂] at h₁
      exact congrArg Prod.fst h₁
    · exact absurd (List.mem_map_of_mem Prod.snd h₂)
        (by rw [← congrArg Prod.snd h₁] at hnd; exact hnd.1)
    · exact absurd (List.mem_map_of_mem Prod.snd h₁)
        (by rw [← congrArg Prod.snd h₂] at hnd; exact hnd.1)
    · exact ih hnd.2 h₁ h₂

/-- Claim C1: sync planning is exact set difference on key strings:
`to_delete` holds exactly the ids of keys present in the existing snapshot
but absent from the incoming mapping, `to_add` exactly the Documents whose
keys are absent from the snapshot, and a key present in both contributes to
neither output. -/
theorem sync_plan_exact (E : Dict Str Nat) (I : Dict Str Document)
    (hEv : (dictValues E).Nodup) (hIv : (dictValues I).Nodup) :
    (∀ pid, pid ∈ planDeletes E I ↔ ∃ k, (k, pid) ∈ E ∧ ∀ d, (k, d) ∉ I)
    ∧ (∀ d, d ∈ planAdds E I ↔ ∃ k, (k, d) ∈ I ∧ ∀ pid, (k, pid) ∉ E)
    ∧ (∀ k pid d, (k, pid) ∈ E → (k, d) ∈ I →
        pid ∉ planDeletes E I ∧ d ∉ planAdds E I) := by
  refine ⟨fun pid => mem_planDeletes_iff E I pid,
          fun d => mem_planAdds_iff E I d, ?_⟩
  intro k pid d hE hI
  constructor
  · intro hdel
    obtain ⟨k', hk'E, hk'I⟩ := (mem_planDeletes_iff E I pid).mp hdel
    have : k' = k := key_eq_of_nodup_values hEv hk'E hE
    subst this
    exact hk'I d hI
  · intro hadd
    obtain ⟨k', hk'I, hk'E⟩ := (mem_planAdds_iff E I d).mp hadd
    have : k' = k := key_eq_of_nodup_values hIv hk'I hI
    subst this
    exact hk'E pid hE

/-- Closed instance of the C1 theorem: snapshot keys {a, b}, incoming keys
{b, c}; the id under a is deleted, the document under c is added, and the
shared key b contributes to neither. -/
theorem sync_plan_exact_witness :
    ((dictValues ([(['a'], 1), (['b'], 2)] : Dict Str Nat)).Nodup
      ∧ (dictValues ([(['b'], Document.mk ['b'] ⟨some ['b'], none, none⟩),
                      (['c'], Document.mk ['c'] ⟨some ['c'], none, none⟩)] :
          Dict Str Document)).Nodup)
    ∧ ((1 : Nat) ∈ planDeletes [(['a'], 1), (['b'], 2)]
          [(['b'], Document.mk ['b'] ⟨some ['b'], none, none⟩),
           (['c'], Document.mk ['c'] ⟨some ['c'], none, none⟩)]
        ↔ ∃ k, (k, (1 : Nat)) ∈ ([(['a'], 1), (['b'], 2)] : Dict Str Nat)
            ∧ ∀ d, (k, d) ∉ [(['b'], Document.mk ['b'] ⟨some ['b'], none, none⟩),
                             (['c'], Document.mk ['c'] ⟨some ['c'], none, none⟩)]) :=
  ⟨⟨by decide, by decide⟩,
   (sync_plan_exact [(['a'], 1), (['b'], 2)]
      [(['b'], Document.mk ['b'] ⟨some ['b'], none, none⟩),
       (['c'], Document.mk ['c'] ⟨some ['c'], none, none⟩)]
      (by decide) (by decide)).1 1⟩

theorem sliceGroups_flatten {α : Type} (n : Nat) (hn : 0 < n) (l : List α) :
    (sliceGroups n l).flatten = l := by
  induction l using sliceGroups.induct n with
  | case1 => rw [sliceGroups]; rfl
  | case2 a l ih =>
    rw [sliceGroups]
    simp only [List.flatten_cons, ih]
    obtain ⟨m, rfl⟩ := Nat.exists_eq_add_of_lt hn
    simp only [Nat.zero_add, List.take_succ_cons, Nat.add_sub_cancel]
    rw [List.cons_append, List.take_append_drop]

theorem sliceGroups_length {α : Type} (n : Nat) (hn : 0 < n) (l : List α) :
    (sliceGroups n l).length = (l.length + n - 1) / n := by
  induction l using sliceGroups.induct n with
  | case1 =>
    rw [sliceGroups]
    simp only [List.length_nil, Nat.zero_add]
    rw [Nat.div_eq_of_lt (by omega)]
  | case2 a l ih =>
    rw [sliceGroups]
    simp only [List.length_cons, List.length_drop] at ih ⊢
    have hstep : l.length + 1 + n - 1 = l.length + n := by omega
    rw [hstep, Nat.add_div_right _ hn, ih]
    rcases Nat.lt_or_ge l.length (n - 1) with hlt | hge
    · have h0 : l.length - (n - 1) + n - 1 = n - 1 := by omega
      rw [h0, Nat.div_eq_of_lt (by omega), Nat.div_eq_of_lt (by omega)]
    · have h1 : l.length - (n - 1) + n - 1 = l.length := by omega
      rw [h1]

theorem sliceGroups_dropLast_length {α : Type} (n : Nat) (hn : 0 < n) (l : List α) :
    ∀ g ∈ (sliceGroups n l).dropLast, g.length = n := by
  induction l using sliceGroups.induct n with
  | case1 => rw [sliceGroups]; simp
  | case2 a l ih =>
    intro g hg
    rw [sliceGroups] at hg
    rcases hrest : sliceGroups n (l.drop (n - 1)) with _ | ⟨g₀, gs⟩
    · rw [hrest] at hg
      simp at hg
    · rw [hrest] at hg
      rw [List.dropLast_cons_of_ne_nil (by simp)] at hg
      rcases List.mem_cons.mp hg with hg | hg
      · subst hg
        have hdrop : l.drop (n - 1) ≠ [] := by
          intro hnil
          rw [hnil] at hrest
          rw [sliceGroups] at hrest
          exact List.noConfusion hrest
        have hlen : n - 1 ≤ l.length := by
          by_contra hcon
          exact hdrop (List.drop_eq_nil_of_le (by omega))
        rw [List.length_take, List.length_cons]
        omega
      · exact ih g (by rw [hrest]; exact hg)

theorem mem_of_mem_sliceGroups {α : Type} {n : Nat} {l : List α} {g : List α}
    (hg : g ∈ sliceGroups n l) : ∀ x ∈ g, x ∈ l := by
  induction l using sliceGroups.induct n with
  | case1 => rw [sliceGroups] at hg; exact absurd hg (List.not_mem_nil g)
  | case2 a l ih =>
    rw [sliceGroups] at hg
    rcases List.mem_cons.mp hg with hg | hg
    · subst hg
      exact fun x hx => List.mem_of_mem_take hx
    · intro x hx
      exact List.mem_cons_of_mem a (List.mem_of_mem_drop (ih hg x hx))

/-- Claim C4: for `B > 0` the batch upserter issues exactly `ceil(L/B)`
upsert calls; the batches form a contiguous partition of the input in
input order (their concatenation is the input), and every batch except
possibly the last has length exactly `B`. -/
theorem upsert_batches_spec {α : Type} (points : List α) (B : Nat) (hB : 0 < B) :
    (upsert_points_in_batches points B).length = (points.length + B - 1) / B
    ∧ (upsert_points_in_batches points B).flatten = points
    ∧ ∀ b ∈ (upsert_points_in_batches points B).dropLast, b.length = B :=
  ⟨sliceGroups_length B hB points, sliceGroups_flatten B hB points,
   sliceGroups_dropLast_length B hB points⟩

/-- Closed instance of the C4 theorem: five entries in batches of two give
three calls, flattening back to the input, with all but the last of
length two. -/
theorem upsert_batches_spec_witness :
    (0 < 2)
    ∧ ((upsert_points_in_batches [10, 20, 30, 40, 50] 2).length = (5 + 2 - 1) / 2
    ∧ (upsert_points_in_batches [10, 20, 30, 40, 50] 2).flatten = [10, 20, 30, 40, 50]
    ∧ ∀ b ∈ (upsert_points_in_batches [10, 20, 30, 40, 50] 2).dropLast, b.length = 2) :=
  ⟨by decide, upsert_batches_spec [10, 20, 30, 40, 50] 2 (by decide)⟩

/-- Claim C2 (amended): for a Document whose metadata contains a source,
the key is the source followed by an appended `#row_index:` suffix when
`row_index` is present and an appended `#json_index:` suffix when
`json_index` is present, in that order — both are appended when both
indices are present. -/
theorem doc_key_appends_each_suffix (m : Metadata) (s : Str) (h : m.source = some s) :
    doc_key m = Except.ok (some (
      match m.row_index, m.json_index with
      | none, none => s
      | some r, none => s ++ idxSfx rowKeyName r
      | none, some j => s ++ idxSfx jsonKeyName j
      | some r, some j => (s ++ idxSfx rowKeyName r) ++ idxSfx jsonKeyName j)) := by
  rcases m with ⟨src, row, json⟩
  cases h
  rcases row with _ | r <;> rcases json with _ | j <;> rfl

/-- Closed instance of the C2 amended theorem at a metadata carrying both
indices. -/
theorem doc_key_appends_each_suffix_witness :
    ((Metadata.mk (some ['s']) (some 1) (some 2)).source = some ['s'])
    ∧ doc_key ⟨some ['s'], some 1, some 2⟩
        = Except.ok (some ((['s'] ++ idxSfx rowKeyName 1) ++ idxSfx jsonKeyName 2)) :=
  ⟨rfl, doc_key_appends_each_suffix ⟨some ['s'], some 1, some 2⟩ ['s'] rfl⟩

/-- Counterexample to claim C2 as stated: on metadata carrying both
`row_index` and `json_index` the code appends both suffixes, not only the
`row_index` one. -/
theorem doc_key_two_suffixes_cex :
    doc_key ⟨some ("s".toList), some 1, some 2⟩
      = Except.ok (some ("s#row_index:1#json_index:2".toList))
    ∧ "s#row_index:1#json_index:2".toList ≠ "s#row_index:1".toList :=
  ⟨rfl, by decide⟩

/-- Claim C9 (amended): key derivation succeeds with a string result for
every metadata mapping that contains a source string, treating absent
index fields as not present (the key is the bare source when both are
absent, never a zero suffix). -/
theorem doc_key_total_on_sourced (m : Metadata) (s : Str) (h : m.source = some s) :
    (∃ k, doc_key m = Except.ok (some k))
    ∧ (m.row_index = none → m.json_index = none →
        doc_key m = Except.ok (some s)) := by
  rcases m with ⟨src, row, json⟩
  cases h
  refine ⟨⟨addSuffixes row json s, rfl⟩, ?_⟩
  rintro rfl rfl
  rfl

/-- Closed instance of the C9 amended theorem. -/
theorem doc_key_total_on_sourced_witness :
    ((Metadata.mk (some ['a']) none none).source = some ['a'])
    ∧ ((∃ k, doc_key ⟨some ['a'], none, none⟩ = Except.ok (some k))
      ∧ ((Metadata.mk (some ['a']) none none).row_index = none →
         (Metadata.mk (some ['a']) none none).json_index = none →
         doc_key ⟨some ['a'], none, none⟩ = Except.ok (some ['a']))) :=
  ⟨rfl, doc_key_total_on_sourced ⟨some ['a'], none, none⟩ ['a'] rfl⟩

/-- Counterexample to claim C9 as stated: on a metadata mapping with no
source field, `doc_key` raises a `TypeError` when an index field is
present, and returns Python `None` — not a string — when none is. -/
theorem doc_key_missing_source_cex :
    doc_key ⟨none, some 0, none⟩ = Except.error ()
    ∧ ¬ ∃ s, doc_key ⟨none, none, none⟩ = Except.ok (some s) :=
  ⟨rfl, by rintro ⟨s, hs⟩; simp [doc_key] at hs⟩

theorem chunkPoints_payload (embed : Str → Vec) (m : Metadata) :
    ∀ (chunks : List Str) (nid : Nat), ∀ p ∈ (chunkPoints embed m chunks nid).1,
      p.payload = ⟨p.payload.text, m.source, m.row_index, m.json_index⟩ := by
  intro chunks
  induction chunks with
  | nil =>
    intro nid p hp
    simp [chunkPoints] at hp
  | cons c rest ih =>
    intro nid p hp
    rcases List.mem_cons.mp hp with hp | hp
    · subst hp
      rfl
    · exact ih (nid + 1) p hp

/-- Claim C7: for a Document whose metadata contains a source string, every
point built for one of its chunks carries a payload from which the snapshot
scan's key derivation reconstructs exactly the key `doc_key` assigns to the
owning Document. -/
theorem payload_key_roundtrip (embed : Str → Vec) (d : Document) (s : Str) (nid : Nat)
    (h : d.metadata.source = some s) :
    ∀ p ∈ (chunkPoints embed d.metadata (chunk_text d.text CHUNK_SIZE) nid).1,
      doc_key d.metadata = Except.ok (some (scanKey p.payload)) := by
  intro p hp
  have hpay := chunkPoints_payload embed d.metadata (chunk_text d.text CHUNK_SIZE) nid p hp
  rw [hpay]
  rcases d with ⟨t, m⟩
  rcases m with ⟨src, row, json⟩
  simp only at h ⊢
  cases h
  rfl

theorem chunkPoints_ids (embed : Str → Vec) (m : Metadata) :
    ∀ (chunks : List Str) (nid : Nat),
      (chunkPoints embed m chunks nid).1.map PointStruct.id
          = List.range' nid chunks.length
      ∧ (chunkPoints embed m chunks nid).2 = nid + chunks.length := by
  intro chunks
  induction chunks with
  | nil => intro nid; exact ⟨rfl, rfl⟩
  | cons c rest ih =>
    intro nid
    obtain ⟨ih1, ih2⟩ := ih (nid + 1)
    constructor
    · show nid :: (chunkPoints embed m rest (nid + 1)).1.map PointStruct.id = _
      rw [ih1, List.length_cons, List.range'_succ]
    · show (chunkPoints embed m rest (nid + 1)).2 = _
      rw [ih2, List.length_cons]
      omega

theorem buildNewPoints_ids (embed : Str → Vec) :
    ∀ (docs : List Document) (nid : Nat),
      (buildNewPoints embed docs nid).1.map PointStruct.id
          = List.range' nid
              ((docs.map (fun d => (chunk_text d.text CHUNK_SIZE).length)).sum)
      ∧ (buildNewPoints embed docs nid).2
          = nid + ((docs.map (fun d => (chunk_text d.text CHUNK_SIZE).length)).sum) := by
  intro docs
  induction docs with
  | nil => intro nid; exact ⟨rfl, rfl⟩
  | cons d rest ih =>
    intro nid
    have hc := chunkPoints_ids embed d.metadata (chunk_text d.text CHUNK_SIZE) nid
    obtain ⟨ih1, ih2⟩ := ih (chunkPoints embed d.metadata (chunk_text d.text CHUNK_SIZE) nid).2
    constructor
    · show ((chunkPoints embed d.metadata (chunk_text d.text CHUNK_SIZE) nid).1
          ++ (buildNewPoints embed rest _).1).map PointStruct.id = _
      rw [List.map_append, hc.1, ih1, hc.2, List.map_cons, List.sum_cons,
        List.range'_append_1]
      rw [Nat.add_comm ((rest.map (fun d => (chunk_text d.text CHUNK_SIZE).length)).sum)]
    · show (buildNewPoints embed rest _).2 = _
      rw [ih2, hc.2, List.map_cons, List.sum_cons]
      omega

theorem mem_range'_one {s n m : Nat} : m ∈ List.range' s n ↔ s ≤ m ∧ m < s + n := by
  rw [List.mem_range']
  constructor
  · rintro ⟨i, hi, rfl⟩
    omega
  · rintro ⟨h1, h2⟩
    exact ⟨m - s, by omega, by omega⟩

theorem pairwise_lt_range'_one (s n : Nat) : (List.range' s n).Pairwise (· < ·) := by
  induction n generalizing s with
  | zero => exact List.Pairwise.nil
  | succ n ih =>
    rw [List.range'_succ]
    refine List.Pairwise.cons ?_ (ih (s + 1))
    intro x hx
    have := mem_range'_one.mp hx
    omega

theorem init_le_foldl_max (l : List Nat) : ∀ a : Nat, a ≤ l.foldl max a := by
  induction l with
  | nil => intro a; exact Nat.le_refl a
  | cons b l ih =>
    intro a
    exact Nat.le_trans (Nat.le_max_left a b) (ih (max a b))

theorem le_foldl_max (l : List Nat) : ∀ a : Nat, ∀ v ∈ l, v ≤ l.foldl max a := by
  induction l with
  | nil => intro a v hv; exact absurd hv (List.not_mem_nil v)
  | cons b l ih =>
    intro a v hv
    rcases List.mem_cons.mp hv with rfl | hv
    · exact Nat.le_trans (Nat.le_max_right a v) (init_le_foldl_max l (max a v))
    · exact ih (max a b) v hv

/-- Claim C5: the id allocator initialises at `max(seed, default 0) + 1`,
and across the successive ids assigned to new points within one sync run
it emits a strictly increasing sequence each member of which exceeds every
id of the seed set. -/
theorem id_allocator_spec (E : Dict (Option Str) Nat) (embed : Str → Vec)
    (docs : List Document) :
    (((buildNewPoints embed docs ((dictValues E).foldl max 0 + 1)).1.map
        PointStruct.id).Pairwise (· < ·))
    ∧ (∀ i ∈ (buildNewPoints embed docs ((dictValues E).foldl max 0 + 1)).1.map
          PointStruct.id, ∀ v ∈ dictValues E, v < i) := by
  rw [(buildNewPoints_ids embed docs ((dictValues E).foldl max 0 + 1)).1]
  constructor
  · exact pairwise_lt_range'_one _ _
  · intro i hi v hv
    have h1 := (mem_range'_one.mp hi).1
    have h2 := le_foldl_max (dictValues E) 0 v hv
    omega

/-- Closed instance of the C5 theorem: with seed ids {4, 9} the first
allocated id is 10, which is a member of the emitted ids and exceeds the
seed id 4. -/
theorem id_allocator_spec_witness : (4 : Nat) < 10 :=
  (id_allocator_spec [(some ['a'], 4), (some ['b'], 9)] (fun _ => [])
    [⟨['h'], ⟨some ['c'], none, none⟩⟩]).2 10
    (by simp [buildNewPoints, chunkPoints, chunk_text, CHUNK_SIZE, pySplit, isWs,
          sliceGroups, joinSpaces, dictValues])
    4 (by decide)

/-- Closed instance of the C7 theorem: the point built for the single chunk
of a one-word document scans back to its document key. -/
theorem payload_key_roundtrip_witness :
    doc_key (Document.mk ['h'] ⟨some ['a'], some 3, none⟩).metadata
      = Except.ok (some (scanKey (PointStruct.mk 7 []
          ⟨['h'], some ['a'], some 3, none⟩).payload)) :=
  payload_key_roundtrip (fun _ => []) ⟨['h'], ⟨some ['a'], some 3, none⟩⟩ ['a'] 7 rfl
    ⟨7, [], ⟨['h'], some ['a'], some 3, none⟩⟩
    (by simp [chunkPoints, chunk_text, CHUNK_SIZE, pySplit, isWs, sliceGroups,
      joinSpaces])

theorem dictLookup_dictInsert [DecidableEq α] (d : Dict α β) (k k' : α) (v : β) :
    dictLookup k' (dictInsert k v d) = if k' = k then some v else dictLookup k' d := by
  induction d with
  | nil =>
    by_cases hk' : k' = k
    · simp [dictInsert, dictLookup, hk']
    · simp [dictInsert, dictLookup, hk']
  | cons kv d ih =>
    obtain ⟨k₀, v₀⟩ := kv
    by_cases hk : k = k₀
    · subst hk
      by_cases hk' : k' = k
      · subst hk'
        simp [dictInsert, dictLookup]
      · simp [dictInsert, dictLookup, hk']
    · by_cases hk' : k' = k₀
      · subst hk'
        have hne : ¬ k' = k := fun hc => hk hc.symm
        simp [dictInsert, dictLookup, hk, hne]
      · simp [dictInsert, dictLookup, hk, hk', ih]

theorem mem_dictKeys_dictInsert [DecidableEq α] (d : Dict α β) (k x : α) (v : β) :
    x ∈ dictKeys (dictInsert k v d) ↔ x = k ∨ x ∈ dictKeys d := by
  induction d with
  | nil => simp [dictInsert, dictKeys]
  | cons kv d ih =>
    obtain ⟨k₀, v₀⟩ := kv
    by_cases hk : k = k₀
    · subst hk
      simp [dictInsert, dictKeys]
    · simp only [dictInsert, if_neg hk, dictKeys, List.map_cons, List.mem_cons] at ih ⊢
      rw [ih]
      tauto

theorem dictKeys_dictInsert_nodup [DecidableEq α] {d : Dict α β}
    (h : (dictKeys d).Nodup) (k : α) (v : β) :
    (dictKeys (dictInsert k v d)).Nodup := by
  induction d with
  | nil => simp [dictInsert, dictKeys]
  | cons kv d ih =>
    obtain ⟨k₀, v₀⟩ := kv
    simp only [dictKeys, List.map_cons, List.nodup_cons] at h
    by_cases hk : k = k₀
    · subst hk
      simpa [dictInsert, dictKeys] using h
    · simp only [dictInsert, if_neg hk, dictKeys, List.map_cons, List.nodup_cons]
      refine ⟨?_, ih h.2⟩
      rw [show (dictInsert k v d).map Prod.fst = dictKeys (dictInsert k v d) from rfl,
        mem_dictKeys_dictInsert]
      rintro (rfl | hmem)
      · exact hk rfl
      · exact h.1 hmem

theorem getLast?_cons_or (a : α) (t : List α) :
    (a :: t).getLast? = t.getLast?.or (some a) := by
  rw [List.getLast?_cons]
  cases t.getLast? <;> rfl

theorem or_some_or (x : Option α) (a : α) (y : Option α) :
    (x.or (some a)).or y = x.or (some a) := by
  cases x <;> rfl

/-- The generalised accumulator form of the `new_index` construction:
the fold succeeds when every key derivation does, keeps its keys nodup,
and ends with each key bound to the last matching document. -/
theorem buildNewIndexAux (docs : List Document) :
    ∀ acc : Dict (Option Str) Document,
      (∀ d ∈ docs, ∃ k, doc_key d.metadata = Except.ok k) →
      ∃ idx,
        docs.foldlM (fun d doc =>
            (doc_key doc.metadata).map (fun k => dictInsert k doc d)) acc
          = Except.ok idx
        ∧ ((dictKeys acc).Nodup → (dictKeys idx).Nodup)
        ∧ ∀ k, dictLookup k idx
            = ((docs.filter
                  (fun d => decide (doc_key d.metadata = Except.ok k))).getLast?).or
                (dictLookup k acc) := by
  induction docs with
  | nil =>
    intro acc _
    refine ⟨acc, rfl, id, fun k => ?_⟩
    simp only [List.filter_nil, List.getLast?_nil]
    cases dictLookup k acc <;> rfl
  | cons d rest ih =>
    intro acc h
    obtain ⟨kd, hkd⟩ := h d (List.mem_cons_self d rest)
    have hrest := fun d' hd' => h d' (List.mem_cons_of_mem d hd')
    obtain ⟨idx, heq, hnd, hlook⟩ := ih (dictInsert kd d acc) hrest
    refine ⟨idx, ?_, ?_, ?_⟩
    · rw [List.foldlM_cons, hkd]
      exact heq
    · intro hacc
      exact hnd (dictKeys_dictInsert_nodup hacc kd d)
    · intro k
      rw [hlook k, dictLookup_dictInsert]
      by_cases hkk : kd = k
      · subst hkk
        rw [if_pos rfl]
        rw [List.filter_cons_of_pos (by simp [hkd]), getLast?_cons_or, or_some_or]
      · rw [if_neg (fun hc => hkk hc.symm)]
        rw [List.filter_cons_of_neg (by simp [hkd, hkk])]

/-- Claim C10: duplicate incoming keys collapse to the last loaded
Document: `new_index` binds each key to the Document occurring last in
load order among those deriving that key, and holds at most one Document
per key. -/
theorem incoming_index_last_wins (docs : List Document)
    (h : ∀ d ∈ docs, ∃ k, doc_key d.metadata = Except.ok k) :
    ∃ idx, buildNewIndex docs = Except.ok idx
      ∧ (dictKeys idx).Nodup
      ∧ ∀ k, dictLookup k idx
          = (docs.filter
              (fun d => decide (doc_key d.metadata = Except.ok k))).getLast? := by
  obtain ⟨idx, heq, hnd, hlook⟩ := buildNewIndexAux docs [] h
  refine ⟨idx, heq, hnd (by simp [dictKeys]), fun k => ?_⟩
  rw [hlook k]
  show _ = (docs.filter (fun d => decide (doc_key d.metadata = Except.ok k))).getLast?
  rw [show dictLookup k ([] : Dict (Option Str) Document) = none from rfl]
  cases (docs.filter (fun d => decide (doc_key d.metadata = Except.ok k))).getLast? <;> rfl

/-- Closed instance of the C10 theorem: two documents with the same key;
the index retains the later one. -/
theorem incoming_index_last_wins_witness :
    ∃ idx, buildNewIndex [⟨['x'], ⟨some ['a'], none, none⟩⟩,
        ⟨['y'], ⟨some ['a'], none, none⟩⟩] = Except.ok idx
      ∧ (dictKeys idx).Nodup
      ∧ ∀ k, dictLookup k idx
          = (([⟨['x'], ⟨some ['a'], none, none⟩⟩,
              ⟨['y'], ⟨some ['a'], none, none⟩⟩] : List Document).filter
              (fun d => decide (doc_key d.metadata = Except.ok k))).getLast? :=
  incoming_index_last_wins
    [⟨['x'], ⟨some ['a'], none, none⟩⟩, ⟨['y'], ⟨some ['a'], none, none⟩⟩]
    (by
      intro d hd
      simp only [List.mem_cons, List.not_mem_nil, or_false] at hd
      rcases hd with rfl | rfl
      · exact ⟨some ['a'], rfl⟩
      · exact ⟨some ['a'], rfl⟩)

theorem takeWhile_of_all {p : α → Bool} (l : List α) (h : ∀ x ∈ l, p x = true) :
    l.takeWhile p = l := by
  induction l with
  | nil => rfl
  | cons a l ih =>
    rw [List.takeWhile_cons, if_pos (h a (List.mem_cons_self a l))]
    rw [ih (fun x hx => h x (List.mem_cons_of_mem a hx))]

theorem dropWhile_of_all {p : α → Bool} (l : List α) (h : ∀ x ∈ l, p x = true) :
    l.dropWhile p = [] := by
  induction l with
  | nil => rfl
  | cons a l ih =>
    rw [List.dropWhile_cons, if_pos (h a (List.mem_cons_self a l))]
    exact ih (fun x hx => h x (List.mem_cons_of_mem a hx))

theorem pySplit_words_ok (t : Str) :
    ∀ w ∈ pySplit t, w ≠ [] ∧ ∀ c ∈ w, isWs c = false := by
  induction t using pySplit.induct with
  | case1 =>
    rw [pySplit]
    intro w hw
    exact absurd hw (List.not_mem_nil w)
  | case2 c cs hc ih =>
    rw [pySplit, if_pos hc]
    exact ih
  | case3 c cs hc ih =>
    rw [pySplit, if_neg hc]
    intro w hw
    rcases List.mem_cons.mp hw with rfl | hw
    · refine ⟨by simp, ?_⟩
      intro x hx
      rcases List.mem_cons.mp hx with rfl | hx
      · exact Bool.of_not_eq_true hc
      · have := List.mem_takeWhile_imp hx
        simpa using this
    · exact ih w hw

theorem pySplit_all_ws (t : Str) (h : ∀ c ∈ t, isWs c = true) : pySplit t = [] := by
  induction t using pySplit.induct with
  | case1 => rw [pySplit]
  | case2 c cs hc ih =>
    rw [pySplit, if_pos hc]
    exact ih (fun x hx => h x (List.mem_cons_of_mem c hx))
  | case3 c cs hc ih =>
    exact absurd (h c (List.mem_cons_self c cs)) hc

theorem pySplit_word (w : Str) (hw : w ≠ []) (hok : ∀ c ∈ w, isWs c = false) :
    pySplit w = [w] := by
  rcases w with _ | ⟨c, cs⟩
  · exact absurd rfl hw
  · rw [pySplit, if_neg (by simp [hok c (List.mem_cons_self c cs)])]
    rw [takeWhile_of_all cs (by
      intro x hx
      simp [hok x (List.mem_cons_of_mem c hx)])]
    rw [dropWhile_of_all cs (by
      intro x hx
      simp [hok x (List.mem_cons_of_mem c hx)])]
    rw [pySplit]

theorem pySplit_word_cons (w : Str) (r : Str) (hw : w ≠ [])
    (hok : ∀ c ∈ w, isWs c = false) :
    pySplit (w ++ ' ' :: r) = w :: pySplit r := by
  rcases w with _ | ⟨c, cs⟩
  · exact absurd rfl hw
  · rw [List.cons_append, pySplit, if_neg (by simp [hok c (List.mem_cons_self c cs)])]
    have hcs : ∀ x ∈ cs, (fun x => !isWs x) x = true := by
      intro x hx
      simp [hok x (List.mem_cons_of_mem c hx)]
    rw [List.takeWhile_append_of_pos hcs, List.dropWhile_append_of_pos hcs]
    rw [show (' ' :: r).takeWhile (fun x => !isWs x) = [] from rfl]
    rw [show (' ' :: r).dropWhile (fun x => !isWs x) = ' ' :: r from rfl]
    rw [show pySplit (' ' :: r) = pySplit r from by rw [pySplit]; rw [if_pos (by decide)]]
    rw [List.append_nil]

theorem pySplit_joinSpaces (ws : List Str)
    (h : ∀ w ∈ ws, w ≠ [] ∧ ∀ c ∈ w, isWs c = false) :
    pySplit (joinSpaces ws) = ws := by
  induction ws with
  | nil => rw [joinSpaces, pySplit]
  | cons w ws ih =>
    rcases ws with _ | ⟨w', ws'⟩
    · rw [joinSpaces]
      exact pySplit_word w (h w (List.mem_cons_self w _)).1 (h w (List.mem_cons_self w _)).2
    · rw [show joinSpaces (w :: w' :: ws') = w ++ ' ' :: joinSpaces (w' :: ws') from rfl]
      rw [pySplit_word_cons w _ (h w (List.mem_cons_self w _)).1
        (h w (List.mem_cons_self w _)).2]
      rw [ih (fun x hx => h x (List.mem_cons_of_mem w hx))]

theorem joinSpaces_cons_of_ne_nil (w : Str) (ws : List Str) (h : ws ≠ []) :
    joinSpaces (w :: ws) = w ++ ' ' :: joinSpaces ws := by
  rcases ws with _ | ⟨w', ws'⟩
  · exact absurd rfl h
  · rfl

theorem joinSpaces_append (l₁ l₂ : List Str) (h₁ : l₁ ≠ []) (h₂ : l₂ ≠ []) :
    joinSpaces (l₁ ++ l₂) = joinSpaces l₁ ++ ' ' :: joinSpaces l₂ := by
  induction l₁ with
  | nil => exact absurd rfl h₁
  | cons w l₁ ih =>
    rcases l₁ with _ | ⟨w', l₁'⟩
    · rw [List.singleton_append, joinSpaces_cons_of_ne_nil w l₂ h₂, joinSpaces]
    · rw [List.cons_append,
        joinSpaces_cons_of_ne_nil w ((w' :: l₁') ++ l₂) (by simp),
        ih (by simp), joinSpaces_cons_of_ne_nil w (w' :: l₁') (by simp)]
      simp

theorem sliceGroups_ne_nil {α : Type} (n : Nat) (hn : 0 < n) (l : List α) :
    ∀ g ∈ sliceGroups n l, g ≠ [] := by
  induction l using sliceGroups.induct n with
  | case1 =>
    rw [sliceGroups]
    intro g hg
    exact absurd hg (List.not_mem_nil g)
  | case2 a l ih =>
    rw [sliceGroups]
    intro g hg
    rcases List.mem_cons.mp hg with rfl | hg
    · obtain ⟨m, rfl⟩ := Nat.exists_eq_add_of_lt hn
      simp
    · exact ih g hg

theorem joinSpaces_map_sliceGroups (n : Nat) (hn : 0 < n) (ws : List Str) :
    joinSpaces ((sliceGroups n ws).map joinSpaces) = joinSpaces ws := by
  induction ws using sliceGroups.induct n with
  | case1 => rw [sliceGroups]; rfl
  | case2 a l ih =>
    rw [sliceGroups, List.map_cons]
    rcases hrest : sliceGroups n (l.drop (n - 1)) with _ | ⟨g₀, gs⟩
    · have hdrop : l.drop (n - 1) = [] := by
        by_contra hne
        rcases hd : l.drop (n - 1) with _ | ⟨x, xs⟩
        · exact hne hd
        · rw [hd] at hrest
          rw [sliceGroups] at hrest
          exact List.noConfusion hrest
      rw [List.map_nil, joinSpaces]
      rw [List.take_of_length_le (by
        have := congrArg List.length hdrop
        simp at this
        simp
        omega)]
    · rw [hrest] at ih
      rw [joinSpaces_cons_of_ne_nil _ _ (by simp), ih]
      have hgne : (a :: l).take n ≠ [] := by
        obtain ⟨m, rfl⟩ := Nat.exists_eq_add_of_lt hn
        simp
      have hdropne : l.drop (n - 1) ≠ [] := by
        intro hnil
        rw [hnil] at hrest
        rw [sliceGroups] at hrest
        exact List.noConfusion hrest
      rw [← joinSpaces_append _ _ hgne hdropne]
      obtain ⟨m, rfl⟩ := Nat.exists_eq_add_of_lt hn
      rw [List.take_succ_cons, Nat.add_sub_cancel, List.cons_append,
        List.take_append_drop]

/-- Claim C3: for `N > 0` the chunks joined with single spaces reproduce
the whitespace-normalised form of the text (its whitespace-run split
rejoined with single spaces); every chunk except possibly the last holds
exactly `N` whitespace-delimited tokens; and a text that is empty or all
whitespace produces no chunks. -/
theorem chunk_text_spec (t : Str) (n : Nat) (hn : 0 < n) :
    joinSpaces (chunk_text t n) = joinSpaces (pySplit t)
    ∧ (∀ c ∈ (chunk_text t n).dropLast, (pySplit c).length = n)
    ∧ (t.all isWs = true → chunk_text t n = []) := by
  refine ⟨joinSpaces_map_sliceGroups n hn (pySplit t), ?_, ?_⟩
  · intro c hc
    rw [chunk_text, ← List.map_dropLast] at hc
    obtain ⟨g, hg, rfl⟩ := List.mem_map.mp hc
    have hgmem : g ∈ sliceGroups n (pySplit t) :=
      (List.dropLast_sublist (sliceGroups n (pySplit t))).subset hg
    have hwords : ∀ w ∈ g, w ≠ [] ∧ ∀ ch ∈ w, isWs ch = false :=
      fun w hw => pySplit_words_ok t w (mem_of_mem_sliceGroups hgmem w hw)
    rw [pySplit_joinSpaces g hwords]
    exact sliceGroups_dropLast_length n hn (pySplit t) g hg
  · intro hws
    rw [chunk_text, pySplit_all_ws t (by
      intro c hc
      exact List.all_eq_true.mp hws c hc)]
    rw [sliceGroups]
    rfl

/-- Closed instance of the C3 theorem on the text "one two three" with
chunk size 2. -/
theorem chunk_text_spec_witness :
    joinSpaces (chunk_text ("one two three".toList) 2)
        = joinSpaces (pySplit ("one two three".toList))
    ∧ (∀ c ∈ (chunk_text ("one two three".toList) 2).dropLast,
        (pySplit c).length = 2)
    ∧ (("one two three".toList).all isWs = true
        → chunk_text ("one two three".toList) 2 = []) :=
  chunk_text_spec ("one two three".toList) 2 (by decide)

theorem reprNatAux_fuel (f₁ : Nat) :
    ∀ (f₂ n : Nat), n < f₁ → n < f₂ → reprNatAux f₁ n = reprNatAux f₂ n := by
  induction f₁ with
  | zero => intro f₂ n h₁; omega
  | succ g ih =>
    intro f₂ n h₁ h₂
    rcases f₂ with _ | g₂
    · omega
    · rw [reprNatAux, reprNatAux]
      by_cases h10 : n < 10
      · rw [if_pos h10, if_pos h10]
      · rw [if_neg h10, if_neg h10]
        have hdiv : n / 10 < n := Nat.div_lt_self (by omega) (by omega)
        rw [ih g₂ (n / 10) (by omega) (by omega)]

theorem reprNat_eq (n : Nat) :
    reprNat n = if n < 10 then [digitChar n]
      else reprNat (n / 10) ++ [digitChar (n % 10)] := by
  rw [reprNat, reprNatAux]
  by_cases h10 : n < 10
  · rw [if_pos h10, if_pos h10]
  · rw [if_neg h10, if_neg h10, reprNat]
    have hdiv : n / 10 < n := Nat.div_lt_self (by omega) (by omega)
    rw [reprNatAux_fuel n (n / 10 + 1) (n / 10) (by omega) (by omega)]

theorem digitChar_toNat : ∀ d, d < 10 → (digitChar d).toNat - 48 = d := by decide

theorem decodeNat_reprNat (n : Nat) : decodeNat (reprNat n) = n := by
  induction n using Nat.strong_induction_on with
  | _ n ih =>
    rw [reprNat_eq]
    by_cases h10 : n < 10
    · rw [if_pos h10]
      show 10 * 0 + ((digitChar n).toNat - 48) = n
      rw [digitChar_toNat n h10]
      omega
    · rw [if_neg h10]
      have hdiv : n / 10 < n := Nat.div_lt_self (by omega) (by omega)
      show (reprNat (n / 10) ++ [digitChar (n % 10)]).foldl
        (fun a c => 10 * a + (c.toNat - 48)) 0 = n
      rw [List.foldl_append]
      show 10 * decodeNat (reprNat (n / 10)) + ((digitChar (n % 10)).toNat - 48) = n
      rw [ih (n / 10) hdiv, digitChar_toNat (n % 10) (Nat.mod_lt n (by omega))]
      omega

theorem reprNat_inj {a b : Nat} (h : reprNat a = reprNat b) : a = b := by
  have := congrArg decodeNat h
  rwa [decodeNat_reprNat, decodeNat_reprNat] at this

theorem digitChar_ne_hash : ∀ d, digitChar d ≠ '#' := by
  intro d
  unfold digitChar
  split <;> decide

theorem reprNat_no_hash (n : Nat) : ∀ c ∈ reprNat n, c ≠ '#' := by
  induction n using Nat.strong_induction_on with
  | _ n ih =>
    rw [reprNat_eq]
    by_cases h10 : n < 10
    · rw [if_pos h10]
      intro c hc
      rw [List.mem_singleton.mp hc]
      exact digitChar_ne_hash n
    · rw [if_neg h10]
      intro c hc
      rcases List.mem_append.mp hc with hc | hc
      · exact ih (n / 10) (Nat.div_lt_self (by omega) (by omega)) c hc
      · rw [List.mem_singleton.mp hc]
        exact digitChar_ne_hash (n % 10)

theorem hashfree_append_inj (s₁ : Str) :
    ∀ (s₂ t₁ t₂ : Str), (∀ c ∈ s₁, c ≠ '#') → (∀ c ∈ s₂, c ≠ '#') →
      (t₁ = [] ∨ ∃ u, t₁ = '#' :: u) → (t₂ = [] ∨ ∃ u, t₂ = '#' :: u) →
      s₁ ++ t₁ = s₂ ++ t₂ → s₁ = s₂ ∧ t₁ = t₂ := by
  induction s₁ with
  | nil =>
    intro s₂ t₁ t₂ _ hh₂ ht₁ _ heq
    rcases s₂ with _ | ⟨b, s₂'⟩
    · exact ⟨rfl, heq⟩
    · rw [List.nil_append, List.cons_append] at heq
      rcases ht₁ with rfl | ⟨u, rfl⟩
      · exact absurd heq.symm (List.cons_ne_nil b (s₂' ++ t₂))
      · have hb : b = '#' := (List.cons.injEq _ _ _ _ ▸ heq).1.symm
        exact absurd hb (hh₂ b (List.mem_cons_self b s₂'))
  | cons a s₁' ih =>
    intro s₂ t₁ t₂ hh₁ hh₂ ht₁ ht₂ heq
    rcases s₂ with _ | ⟨b, s₂'⟩
    · rw [List.nil_append, List.cons_append] at heq
      rcases ht₂ with rfl | ⟨u, rfl⟩
      · exact absurd heq (List.cons_ne_nil a (s₁' ++ t₁))
      · have ha : a = '#' := (List.cons.injEq _ _ _ _ ▸ heq).1
        exact absurd ha (hh₁ a (List.mem_cons_self a s₁'))
    · rw [List.cons_append, List.cons_append] at heq
      have hab : a = b := (List.cons.injEq _ _ _ _ ▸ heq).1
      have htail : s₁' ++ t₁ = s₂' ++ t₂ := (List.cons.injEq _ _ _ _ ▸ heq).2
      obtain ⟨hs, ht⟩ := ih s₂' t₁ t₂
        (fun c hc => hh₁ c (List.mem_cons_of_mem a hc))
        (fun c hc => hh₂ c (List.mem_cons_of_mem b hc)) ht₁ ht₂ htail
      exact ⟨by rw [hab, hs], ht⟩

theorem idxSfx_hash_head (name : Str) (v : Nat) :
    idxSfx name v = '#' :: (name ++ (':' :: reprNat v)) := rfl

theorem idxSfx_row_json_ne (r j : Nat) : idxSfx rowKeyName r ≠ idxSfx jsonKeyName j := by
  intro h
  rw [idxSfx_hash_head, idxSfx_hash_head, rowKeyName, jsonKeyName] at h
  injection h with _ h
  simp only [List.cons_append] at h
  injection h with hc _
  exact absurd hc (by decide)

theorem idxSfx_same_name_inj (name : Str) (v₁ v₂ : Nat)
    (h : idxSfx name v₁ = idxSfx name v₂) : v₁ = v₂ := by
  rw [idxSfx, idxSfx] at h
  have h2 := List.append_inj_right h rfl
  injection h2 with _ h3
  exact reprNat_inj h3

/-- Claim C8 (amended): key derivation is injective over
(source, row_index|json_index) for sources that do not contain the '#'
character (and is deterministic, being a pure function of the metadata);
for sources containing '#', distinct inputs can collide. -/
theorem doc_key_injective_hashfree (m₁ m₂ : Metadata) (s₁ s₂ : Str)
    (h₁ : m₁.source = some s₁) (h₂ : m₂.source = some s₂)
    (hh₁ : ∀ c ∈ s₁, c ≠ '#') (hh₂ : ∀ c ∈ s₂, c ≠ '#')
    (ho₁ : m₁.row_index = none ∨ m₁.json_index = none)
    (ho₂ : m₂.row_index = none ∨ m₂.json_index = none)
    (heq : doc_key m₁ = doc_key m₂) : m₁ = m₂ := by
  rcases m₁ with ⟨src₁, row₁, json₁⟩
  rcases m₂ with ⟨src₂, row₂, json₂⟩
  simp only at h₁ h₂ ho₁ ho₂
  subst h₁
  subst h₂
  have key_eq : addSuffixes row₁ json₁ s₁ = addSuffixes row₂ json₂ s₂ := by
    simp only [doc_key, Except.ok.injEq, Option.some.injEq] at heq
    exact heq
  clear heq
  have shape_sfx : ∀ (name : Str) (v : Nat),
      idxSfx name v = [] ∨ ∃ u, idxSfx name v = '#' :: u :=
    fun name v => Or.inr ⟨name ++ (':' :: reprNat v), idxSfx_hash_head name v⟩
  have hform : ∀ (row json : Option Nat), row = none ∨ json = none →
      (row = none ∧ json = none) ∨ (∃ r, row = some r ∧ json = none)
      ∨ (∃ j, row = none ∧ json = some j) := by
    intro row json h
    rcases row with _ | r
    · rcases json with _ | j
      · exact Or.inl ⟨rfl, rfl⟩
      · exact Or.inr (Or.inr ⟨j, rfl, rfl⟩)
    · rcases json with _ | j
      · exact Or.inr (Or.inl ⟨r, rfl, rfl⟩)
      · rcases h with h | h <;> exact absurd h (by simp)
  rcases hform row₁ json₁ ho₁ with ⟨rfl, rfl⟩ | ⟨r₁, rfl, rfl⟩ | ⟨j₁, rfl, rfl⟩ <;>
    rcases hform row₂ json₂ ho₂ with ⟨rfl, rfl⟩ | ⟨r₂, rfl, rfl⟩ | ⟨j₂, rfl, rfl⟩
  · obtain ⟨hs, _⟩ := hashfree_append_inj s₁ s₂ [] [] hh₁ hh₂ (Or.inl rfl) (Or.inl rfl)
      (by rw [List.append_nil, List.append_nil]; exact key_eq)
    rw [hs]
  · obtain ⟨_, ht⟩ := hashfree_append_inj s₁ s₂ [] (idxSfx rowKeyName r₂) hh₁ hh₂
      (Or.inl rfl) (shape_sfx _ _) (by rw [List.append_nil]; exact key_eq)
    rw [idxSfx_hash_head] at ht
    exact List.noConfusion ht
  · obtain ⟨_, ht⟩ := hashfree_append_inj s₁ s₂ [] (idxSfx jsonKeyName j₂) hh₁ hh₂
      (Or.inl rfl) (shape_sfx _ _) (by rw [List.append_nil]; exact key_eq)
    rw [idxSfx_hash_head] at ht
    exact List.noConfusion ht
  · obtain ⟨_, ht⟩ := hashfree_append_inj s₁ s₂ (idxSfx rowKeyName r₁) [] hh₁ hh₂
      (shape_sfx _ _) (Or.inl rfl) (by rw [List.append_nil]; exact key_eq)
    rw [idxSfx_hash_head] at ht
    exact List.noConfusion ht
  · obtain ⟨hs, ht⟩ := hashfree_append_inj s₁ s₂ (idxSfx rowKeyName r₁)
      (idxSfx rowKeyName r₂) hh₁ hh₂ (shape_sfx _ _) (shape_sfx _ _) key_eq
    rw [hs, idxSfx_same_name_inj rowKeyName r₁ r₂ ht]
  · obtain ⟨_, ht⟩ := hashfree_append_inj s₁ s₂ (idxSfx rowKeyName r₁)
      (idxSfx jsonKeyName j₂) hh₁ hh₂ (shape_sfx _ _) (shape_sfx _ _) key_eq
    exact absurd ht (idxSfx_row_json_ne r₁ j₂)
  · obtain ⟨_, ht⟩ := hashfree_append_inj s₁ s₂ (idxSfx jsonKeyName j₁) [] hh₁ hh₂
      (shape_sfx _ _) (Or.inl rfl) (by rw [List.append_nil]; exact key_eq)
    rw [idxSfx_hash_head] at ht
    exact List.noConfusion ht
  · obtain ⟨_, ht⟩ := hashfree_append_inj s₁ s₂ (idxSfx jsonKeyName j₁)
      (idxSfx rowKeyName r₂) hh₁ hh₂ (shape_sfx _ _) (shape_sfx _ _) key_eq
    exact absurd ht.symm (idxSfx_row_json_ne r₂ j₁)
  · obtain ⟨hs, ht⟩ := hashfree_append_inj s₁ s₂ (idxSfx jsonKeyName j₁)
      (idxSfx jsonKeyName j₂) hh₁ hh₂ (shape_sfx _ _) (shape_sfx _ _) key_eq
    rw [hs, idxSfx_same_name_inj jsonKeyName j₁ j₂ ht]

/-- Closed instance of the C8 amended theorem on two hash-free inputs. -/
theorem doc_key_injective_hashfree_witness :
    (Metadata.mk (some ['a']) (some 1) none) = ⟨some ['a'], some 1, none⟩ :=
  doc_key_injective_hashfree ⟨some ['a'], some 1, none⟩ ⟨some ['a'], some 1, none⟩
    ['a'] ['a'] rfl rfl (by decide) (by decide) (Or.inr rfl) (Or.inr rfl) rfl

/-- Counterexample to claim C8 as stated: a source containing '#' collides
with a distinct (source, row_index) pair. -/
theorem doc_key_hash_collision_cex :
    doc_key ⟨some ("a#row_index:1".toList), none, none⟩
      = doc_key ⟨some ("a".toList), some 1, none⟩
    ∧ (("a#row_index:1".toList, (none : Option Nat), (none : Option Nat))
        ≠ ("a".toList, some 1, (none : Option Nat))) :=
  ⟨rfl, by decide⟩
